import Mathlib

/-!
Verification development for the Zolapublish sync plugin.

The definitions below are a shallow embedding of the plugin's source:
`syncManager.ts` (push/pull reconciliation, link transcoding, image sync,
site-side enumeration), the frontmatter parser of `settings.ts`, and the
activity-log manager.  Strings are modelled as `List Char`; the Node
filesystem and the Obsidian vault are modelled as explicit state records;
fallible writes are modelled with an explicit fail set and an
`Option`-returning write.
-/

abbrev Str := List Char

/-! ## Link Transcoder (syncManager.ts, convertImageLinks /
convertImageLinksToObsidian)

The JS code uses `String.replace` with the global regexes
`/!\[\[([^\]]+)\]\]/g` (outbound) and `/!\[([^\]]*)\]\(([^)]+)\)/g`
(inbound).  Because the character classes exclude the very characters the
subsequent literal parts require, these regexes never backtrack into a
successful alternative: a match at a position exists iff the literal
prefix matches, the maximal run of excluded-free characters follows, and
the literal suffix comes right after.  `String.replace` scans left to
right, resuming after each match.  The scanners below implement exactly
that; the fuel argument (initialised to the string length, an upper bound
on the number of scan steps) makes them structurally recursive. -/

/-- Match of the outbound regex at the current position: requires the
literal prefix of one bang and two open brackets, a nonempty maximal run
of chars other than a close bracket (the capture group), then two close
brackets.  Returns the group and the remainder of the string. -/
def outboundStep (s : Str) : Option (Str × Str) :=
  match s with
  | '!' :: '[' :: '[' :: rest =>
    let grp := rest.takeWhile (fun c => c != ']')
    (match rest.drop grp.length with
     | ']' :: ']' :: rest2 => if grp = [] then none else some (grp, rest2)
     | _ => none)
  | _ => none

/-- Mirrors `imagePath.replace(/^\.\.\//, '').replace(/^\.\//, '')`:
strip at most one leading parent-directory marker, then at most one
leading current-directory marker. -/
def stripDots (p : Str) : Str :=
  let p1 := match p with
    | '.' :: '.' :: '/' :: r => r
    | _ => p
  match p1 with
  | '.' :: '/' :: r => r
  | _ => p1

/-- Replacement for an outbound match: clean the path, root it with a
leading slash when absent, and emit standard image markdown with empty
alt text. -/
def outboundRepl (imagePath : Str) : Str :=
  let cp0 := stripDots imagePath
  let cp := if cp0.head? = some '/' then cp0 else '/' :: cp0
  '!' :: '[' :: ']' :: '(' :: (cp ++ [')'])

/-- Fuel-indexed left-to-right scan of the outbound replacement. -/
def convertAuxOut : Nat → Str → Str
  | 0, s => s
  | _ + 1, [] => []
  | n + 1, c :: cs =>
    match outboundStep (c :: cs) with
    | some (g, r) => outboundRepl g ++ convertAuxOut n r
    | none => c :: convertAuxOut n cs

/-- `convertImageLinks` of syncManager.ts: vault wiki-image links to
site rooted markdown links. -/
def convertImageLinks (s : Str) : Str := convertAuxOut s.length s

/-- Match of the inbound regex at the current position: a bang and an
open bracket, a possibly-empty maximal run of chars other than a close
bracket (the alt text), a close bracket, an open paren, a nonempty
maximal run of chars other than a close paren (the path), and a close
paren.  Returns alt text, path and the remainder. -/
def inboundStep (s : Str) : Option (Str × Str × Str) :=
  match s with
  | '!' :: '[' :: rest =>
    let alt := rest.takeWhile (fun c => c != ']')
    (match rest.drop alt.length with
     | ']' :: '(' :: rest2 =>
       let pth := rest2.takeWhile (fun c => c != ')')
       (match rest2.drop pth.length with
        | ')' :: rest3 => if pth = [] then none else some (alt, pth, rest3)
        | _ => none)
     | _ => none)
  | _ => none

/-- Replacement for an inbound match: only paths starting with a root
slash are rewritten (leading slash replaced by a parent-directory marker,
wrapped in wiki brackets, alt text discarded); any other match is
reproduced verbatim. -/
def inboundRepl (alt pth : Str) : Str :=
  if pth.head? = some '/' then
    '!' :: '[' :: '[' :: '.' :: '.' :: '/' :: (pth.drop 1 ++ (']' :: ']' :: []))
  else
    '!' :: '[' :: (alt ++ (']' :: '(' :: (pth ++ [')'])))

/-- Fuel-indexed left-to-right scan of the inbound replacement. -/
def convertAuxIn : Nat → Str → Str
  | 0, s => s
  | _ + 1, [] => []
  | n + 1, c :: cs =>
    match inboundStep (c :: cs) with
    | some (a, p, r) => inboundRepl a p ++ convertAuxIn n r
    | none => c :: convertAuxIn n cs

/-- `convertImageLinksToObsidian` of syncManager.ts: site rooted markdown
links back to vault wiki-image links. -/
def convertImageLinksToObsidian (s : Str) : Str := convertAuxIn s.length s

/-! Concrete documents used by the spec's transcoding scenarios and by
the idempotence analysis. -/

/-- Outbound scenario input of the spec. -/
def docOut1 : Str := "![[../post_imgs/Mapper.png]]".data

/-- Expected outbound scenario output. -/
def docOut1Res : Str := "![](/post_imgs/Mapper.png)".data

/-- Inbound scenario input of the spec. -/
def docIn1 : Str := "![](/post_imgs/Mapper.png)".data

/-- Expected inbound scenario output. -/
def docIn1Res : Str := "![[../post_imgs/Mapper.png]]".data

/-- Inbound scenario input with a non-rooted (external URL) path. -/
def docIn2 : Str := "![alt text](https://example.com/x.png)".data

/-- Document on which the outbound transform is not idempotent: the
rewritten span recombines with the tail into a fresh outbound match. -/
def docNest : Str := "![[![[a]]b]]".data

/-- Document on which the inbound transform is not idempotent: the path
capture itself contains markdown-link punctuation. -/
def docNestIn : Str := "![](/a](/b))".data

/-! ## Filesystem, vault and world model

`FS` models the Node `fs` view of the disk: an association list of
regular files (path to contents), a set of directories, and a fail set of
paths whose writes raise (permission denied).  `Vault` models the
Obsidian vault API: a list of files with vault-relative path, base name
and contents.  Mutating steps additionally report events, so that the
theorems can speak about enumeration, reads and writes performed. -/

/-- Association-list lookup used for the disk file map. -/
def lookupA : List (Str × Str) → Str → Option Str
  | [], _ => none
  | (q, d) :: rest, p => if q = p then some d else lookupA rest p

/-- Association-list overwrite-or-append, mirroring `fs.writeFileSync`
semantics on the file map. -/
def setA : List (Str × Str) → Str → Str → List (Str × Str)
  | [], p, c => [(p, c)]
  | (q, d) :: rest, p, c => if q = p then (p, c) :: rest else (q, d) :: setA rest p c

/-- Disk state: regular files, directories, and paths whose writes fail. -/
structure FS where
  files : List (Str × Str)
  dirs : List Str
  failSet : List Str
deriving DecidableEq

/-- `fs.existsSync` for a path that may be a regular file or a directory. -/
def fsExists (fs : FS) (p : Str) : Bool :=
  (lookupA fs.files p).isSome || decide (p ∈ fs.dirs)

/-- `fs.readFileSync` on a regular file. -/
def fsRead (fs : FS) (p : Str) : Option Str := lookupA fs.files p

/-- `fs.writeFileSync` of `c` at path `p` whose parent directory is
`parent`: fails (returns `none`) when the parent directory is missing,
when the path is a directory, or when the path is in the fail set. -/
def fsWrite (fs : FS) (parent p c : Str) : Option FS :=
  if parent ∈ fs.dirs ∧ p ∉ fs.failSet ∧ p ∉ fs.dirs then
    some { fs with files := setA fs.files p c }
  else none

/-- `fs.mkdirSync` (recursive); in the engine it is only invoked on a
path that does not exist yet. -/
def fsMkdir (fs : FS) (p : Str) : FS := { fs with dirs := p :: fs.dirs }

/-- A file of the Obsidian vault (`TFile`): vault-relative path, base
name, contents (binary contents are modelled with the same carrier). -/
structure VFile where
  path : Str
  name : Str
  content : Str
deriving DecidableEq

/-- The Obsidian vault. -/
structure Vault where
  files : List VFile
deriving DecidableEq

/-- `vault.getMarkdownFiles()`. -/
def getMarkdownFiles (v : Vault) : List VFile :=
  v.files.filter (fun f => (".md".data).isSuffixOf f.path)

/-- `vault.getAbstractFileByPath` restricted to files. -/
def vaultGetByPath (v : Vault) (p : Str) : Option VFile :=
  v.files.find? (fun f => f.path == p)

/-- `vault.modify`: replace the content of the file at the given path. -/
def vaultModify (v : Vault) (p c : Str) : Vault :=
  ⟨v.files.map (fun f => if f.path = p then { f with content := c } else f)⟩

/-- `vault.create`: append a new file (name = basename is set by the
caller's path). -/
def vaultCreate (v : Vault) (p nm c : Str) : Vault :=
  ⟨v.files ++ [⟨p, nm, c⟩]⟩

/-- Observable side-effect events of one engine invocation. -/
inductive Ev where
  | enumEv : Ev
  | vReadEv : Str → Ev
  | fsReadEv : Str → Ev
  | fsWriteEv : Str → Ev
  | mkdirEv : Str → Ev
  | vCreateEv : Str → Ev
  | vModifyEv : Str → Ev
deriving DecidableEq

/-- Events that mutate one of the two trees (destination writes,
directory creation, vault creation or modification). -/
def isMutEv : Ev → Bool
  | .fsWriteEv _ => true
  | .mkdirEv _ => true
  | .vCreateEv _ => true
  | .vModifyEv _ => true
  | _ => false

/-- The configured sync policy. -/
inductive SyncStrategy where
  | oneWay
  | twoWay
deriving DecidableEq

/-- The plugin settings relevant to the engine. -/
structure Settings where
  obsidianPostsPath : Str
  zolaProjectPath : Str
  obsidianImagesPath : Str
  zolaImagesPath : Str
  syncStrategy : SyncStrategy
deriving DecidableEq

/-- The two trees together. -/
structure World where
  vault : Vault
  disk : FS
deriving DecidableEq

/-! ## Path helpers (syncManager.ts) -/

/-- JS `String.split(sep)` on a single separator character. -/
def splitOnChar (c : Char) : Str → List Str
  | [] => [[]]
  | x :: xs =>
    if x = c then [] :: splitOnChar c xs
    else
      match splitOnChar c xs with
      | [] => [[x]]
      | h :: t => (x :: h) :: t

/-- JS `Array.join('/')`. -/
def joinSlash (parts : List Str) : Str := List.intercalate (['/']) parts

/-- JS `String.includes` (substring containment). -/
def includesSub (needle hay : Str) : Bool :=
  hay.tails.any (fun t => needle.isPrefixOf t)

/-- The vault-root heuristic of syncManager.ts applied to one path
segment: a segment that contains a space or one of the substrings
`Brain`, `Vault`, `Obsidian` looks like a vault root. -/
def looksLikeVaultRoot (part : Str) : Bool :=
  includesSub ([' ']) part || includesSub ("Brain".data) part ||
  includesSub ("Vault".data) part || includesSub ("Obsidian".data) part

/-- `replace(/^\//, '')`: strip one leading slash. -/
def stripLeadSlash (p : Str) : Str :=
  match p with
  | '/' :: r => r
  | s => s

/-- The base-path computation shared by `pushToZola` and `syncImages`:
an absolute-looking configured path is cut after the first segment (other
than the last) that looks like a vault root; otherwise its leading slash
is stripped; a relative path is used as is. -/
def computeBasePath (p : Str) : Str :=
  if p.head? = some '/' then
    let parts := splitOnChar '/' p
    match parts.dropLast.findIdx? looksLikeVaultRoot with
    | some i => joinSlash (parts.drop (i + 1))
    | none => stripLeadSlash p
  else p

/-- `path.join(dir, name)` for the flat joins the engine performs. -/
def joinP (dir nm : Str) : Str := dir ++ '/' :: nm

/-- `path.basename`. -/
def pathBasename (p : Str) : Str := (splitOnChar '/' p).getLastD []

/-- `path.relative(base, p)` for the shapes the engine reaches: equal
paths give the empty path; a path under `base` is cut after `base` and
the separator; other shapes are left untouched by this model. -/
def pathRelative (base p : Str) : Str :=
  if base = p then []
  else if (base ++ (['/'])).isPrefixOf p then p.drop (base.length + 1)
  else p

/-! ## Push (syncManager.ts, pushToZola / syncFileToZola / syncImages) -/

/-- The reserved index names excluded from push candidates; the vault
side filter compares file names against this list exactly. -/
def systemFilesPush : List Str := ["_index.md".data, "index.md".data]

/-- The push candidate filter: markdown files under the normalized posts
path whose name is not a reserved index name (exact comparison). -/
def pushCandidates (st : Settings) (v : Vault) : List VFile :=
  let basePath := computeBasePath st.obsidianPostsPath
  (getMarkdownFiles v).filter
    (fun f => basePath.isPrefixOf f.path && !(systemFilesPush.contains f.name))

/-- The destination path of an article candidate: destination root plus
the bare file name. -/
def articleTarget (st : Settings) (f : VFile) : Str := joinP st.zolaProjectPath f.name

/-- `syncFileToZola`: read the vault file, transcode outbound, and if a
destination file with the same name exists and its content equals the
transcoded content, skip; otherwise write.  A write failure (or a
directory squatting on the target) is the per-file error the caller
catches; it leaves the disk unchanged.  Returns success flag, disk and
events. -/
def syncFileToZola (st : Settings) (fs : FS) (f : VFile) : Bool × FS × List Ev :=
  let content := convertImageLinks f.content
  let tp := articleTarget st f
  match fsRead fs tp with
  | some existing =>
    if existing = content then (true, fs, [Ev.vReadEv f.path, Ev.fsReadEv tp])
    else
      match fsWrite fs st.zolaProjectPath tp content with
      | some fs1 => (true, fs1, [Ev.vReadEv f.path, Ev.fsReadEv tp, Ev.fsWriteEv tp])
      | none => (false, fs, [Ev.vReadEv f.path, Ev.fsReadEv tp])
  | none =>
    if tp ∈ fs.dirs then (false, fs, [Ev.vReadEv f.path])
    else
      match fsWrite fs st.zolaProjectPath tp content with
      | some fs1 => (true, fs1, [Ev.vReadEv f.path, Ev.fsWriteEv tp])
      | none => (false, fs, [Ev.vReadEv f.path])

/-- The per-file article loop of `pushToZola`: each candidate is
processed inside its own try/catch; a failure only bumps the error
counter.  Returns final disk, success count, error count and events. -/
def pushFiles (st : Settings) : FS → List VFile → FS × Nat × Nat × List Ev
  | fs, [] => (fs, 0, 0, [])
  | fs, f :: rest =>
    let r := syncFileToZola st fs f
    let rr := pushFiles st r.2.1 rest
    (rr.1, (if r.1 then rr.2.1 + 1 else rr.2.1),
     (if r.1 then rr.2.2.1 else rr.2.2.1 + 1), r.2.2 ++ rr.2.2.2)

/-- The image extension allow-list. -/
def imageExtensions : List Str :=
  [".png".data, ".jpg".data, ".jpeg".data, ".gif".data, ".webp".data,
   ".svg".data, ".ico".data]

/-- JS `toLowerCase` on the ASCII paths of the model. -/
def toLowerStr (s : Str) : Str := s.map Char.toLower

/-- The image candidate filter of `syncImages`: all vault files under
the normalized image directory with an allow-listed extension
(case-insensitive suffix match). -/
def imageCandidates (st : Settings) (v : Vault) : List VFile :=
  let dir := computeBasePath st.obsidianImagesPath
  v.files.filter
    (fun f => dir.isPrefixOf f.path &&
      imageExtensions.any (fun e => e.isSuffixOf (toLowerStr f.path)))

/-- The destination path of an image candidate. -/
def imageTarget (st : Settings) (f : VFile) : Str := joinP st.zolaImagesPath f.name

/-- One iteration of the image copy loop: skip when a destination entry
with the same name exists (regardless of content); otherwise read the
binary and write it (a write failure is caught and counted by neither
counter).  Returns disk, synced flag, skipped flag and events. -/
def copyImage (st : Settings) (fs : FS) (f : VFile) : FS × Bool × Bool × List Ev :=
  let tp := imageTarget st f
  if fsExists fs tp then (fs, false, true, [])
  else
    match fsWrite fs st.zolaImagesPath tp f.content with
    | some fs1 => (fs1, true, false, [Ev.vReadEv f.path, Ev.fsWriteEv tp])
    | none => (fs, false, false, [Ev.vReadEv f.path])

/-- The image copy loop.  Returns disk, synced count, skipped count and
events. -/
def copyImages (st : Settings) : FS → List VFile → FS × Nat × Nat × List Ev
  | fs, [] => (fs, 0, 0, [])
  | fs, f :: rest =>
    let r := copyImage st fs f
    let rr := copyImages st r.1 rest
    (rr.1, (if r.2.1 then rr.2.1 + 1 else rr.2.1),
     (if r.2.2.1 then rr.2.2.1 + 1 else rr.2.2.1), r.2.2.2 ++ rr.2.2.2)

/-- `syncImages`: shared by push and pull.  Returns early when either
image path is unconfigured or no image candidates exist; otherwise makes
sure the destination image directory exists (creating it recursively when
absent) and runs the create-only copy loop. -/
def syncImages (st : Settings) (v : Vault) (fs : FS) : FS × Nat × Nat × List Ev :=
  if st.zolaImagesPath = [] ∨ st.obsidianImagesPath = [] then (fs, 0, 0, [])
  else
    let imgs := imageCandidates st v
    if imgs = [] then (fs, 0, 0, [])
    else
      let step1 := if fsExists fs st.zolaImagesPath then (fs, ([] : List Ev))
                   else (fsMkdir fs st.zolaImagesPath, [Ev.mkdirEv st.zolaImagesPath])
      let r := copyImages st step1.1 imgs
      (r.1, r.2.1, r.2.2.1, step1.2 ++ r.2.2.2)

/-- Outcome of a push invocation. -/
inductive PushResult where
  | configMissing
  | completed (syncCount errorCount : Nat)
deriving DecidableEq

/-- `pushToZola`: refuse when the destination root is unconfigured
(empty); otherwise enumerate the article candidates, run the per-file
loop, then the image step.  The destination root's existence is never
checked. -/
def pushToZola (st : Settings) (w : World) : World × List Ev × PushResult :=
  if st.zolaProjectPath = [] then (w, [], .configMissing)
  else
    let files := pushCandidates st w.vault
    let ra := pushFiles st w.disk files
    let ri := syncImages st w.vault ra.1
    (⟨w.vault, ri.1⟩, Ev.enumEv :: (ra.2.2.2 ++ ri.2.2.2), .completed ra.2.1 ra.2.2.1)

/-! ## Pull (syncManager.ts, pullFromZola / getZolaFiles / syncFileFromZola) -/

/-- The reserved names of `getZolaFiles`, matched case-insensitively
against directory entries, bare or with the markdown extension. -/
def systemFilesSite : List Str :=
  ["_index.md".data, "index.md".data, "_index".data, "index".data]

/-- Name of a direct entry of directory `d` at path `p`, when `p` lies
immediately inside `d`. -/
def entryName (d p : Str) : Option Str :=
  if (d ++ (['/'])).isPrefixOf p then
    let rest := p.drop (d.length + 1)
    if rest ≠ [] ∧ '/' ∉ rest then some rest else none
  else none

/-- `fs.readdirSync`: the names of the files and directories directly
inside `d`. -/
def dirEntries (fs : FS) (d : Str) : List Str :=
  (fs.files.map (fun e => e.1) ++ fs.dirs).filterMap (entryName d)

/-- `getZolaFiles`: list the markdown files directly inside the site
root, skipping hidden entries and the reserved names (case-insensitive,
with or without extension); non-files are skipped by the stat check. -/
def getZolaFiles (fs : FS) (zolaPath : Str) : List Str :=
  if fsExists fs zolaPath then
    (dirEntries fs zolaPath).filterMap (fun entry =>
      let el := toLowerStr entry
      if entry.head? = some '.' then none
      else if systemFilesSite.any (fun sf => el == sf || el == (sf ++ ".md".data)) then none
      else
        let fullPath := joinP zolaPath entry
        if (lookupA fs.files fullPath).isSome && (".md".data).isSuffixOf entry then
          some fullPath
        else none)
  else []

/-- `syncFileFromZola`: read the site file, transcode inbound, re-derive
the vault-relative destination path from configuration, then modify the
existing vault article in place or create it.  Only the vault is
written; the disk is never touched. -/
def syncFileFromZola (st : Settings) (vaultBasePath : Str) (w : World)
    (zolaFilePath : Str) : Bool × World × List Ev :=
  match fsRead w.disk zolaFilePath with
  | none => (false, w, [])
  | some raw =>
    let content := convertImageLinksToObsidian raw
    let fileName := pathBasename zolaFilePath
    let fullTargetPath := joinP st.obsidianPostsPath fileName
    let targetPath :=
      if vaultBasePath.isPrefixOf fullTargetPath then
        pathRelative vaultBasePath fullTargetPath
      else if st.obsidianPostsPath.head? = some '/' then
        joinP (stripLeadSlash st.obsidianPostsPath) fileName
      else joinP st.obsidianPostsPath fileName
    match vaultGetByPath w.vault targetPath with
    | some _ =>
      (true, ⟨vaultModify w.vault targetPath content, w.disk⟩,
       [Ev.fsReadEv zolaFilePath, Ev.vModifyEv targetPath])
    | none =>
      (true, ⟨vaultCreate w.vault targetPath (pathBasename targetPath) content, w.disk⟩,
       [Ev.fsReadEv zolaFilePath, Ev.vCreateEv targetPath])

/-- The per-file article loop of `pullFromZola`, with the same per-file
containment as the push loop. -/
def pullFiles (st : Settings) (vaultBasePath : Str) :
    World → List Str → World × Nat × Nat × List Ev
  | w, [] => (w, 0, 0, [])
  | w, p :: rest =>
    let r := syncFileFromZola st vaultBasePath w p
    let rr := pullFiles st vaultBasePath r.2.1 rest
    (rr.1, (if r.1 then rr.2.1 + 1 else rr.2.1),
     (if r.1 then rr.2.2.1 else rr.2.2.1 + 1), r.2.2 ++ rr.2.2.2)

/-- Outcome of a pull invocation. -/
inductive PullResult where
  | configMissing
  | policyError
  | rootMissing
  | completed (syncCount errorCount : Nat)
deriving DecidableEq

/-- `pullFromZola`: refuse when the site root is unconfigured; refuse
when the policy is not two-way; refuse when the site root does not exist
on disk; otherwise enumerate the site files, pull each, then run the
same create-only image step as push. -/
def pullFromZola (st : Settings) (vaultBasePath : Str) (w : World) :
    World × List Ev × PullResult :=
  if st.zolaProjectPath = [] then (w, [], .configMissing)
  else if st.syncStrategy ≠ .twoWay then (w, [], .policyError)
  else if ¬ (fsExists w.disk st.zolaProjectPath = true) then (w, [], .rootMissing)
  else
    let zolaFiles := getZolaFiles w.disk st.zolaProjectPath
    let ra := pullFiles st vaultBasePath w zolaFiles
    let ri := syncImages st ra.1.vault ra.1.disk
    (⟨ra.1.vault, ri.1⟩, Ev.enumEv :: (ra.2.2.2 ++ ri.2.2.2), .completed ra.2.1 ra.2.2.1)

/-! ## Frontmatter parser (settings.ts, parseFrontmatter) -/

/-- Whitespace for the model's JS `trim` and `\s`. -/
def isWSp (c : Char) : Bool := c == ' ' || c == '\t' || c == '\n' || c == '\r'

/-- JS `String.trim`. -/
def trimStr (s : Str) : Str :=
  ((s.dropWhile isWSp).reverse.dropWhile isWSp).reverse

/-- JS `\w`: ASCII letters, digits and underscore. -/
def isWordChar (c : Char) : Bool := c.isAlphanum || c == '_'

/-- A parsed TOML-ish value: boolean, string, or array of strings. -/
inductive TVal where
  | bl : Bool → TVal
  | st : Str → TVal
  | arr : List Str → TVal
deriving DecidableEq

/-- One array element: trimmed, then stripped of one pair of surrounding
double quotes when both are present (the regex `^"(.*)"$` needs two). -/
def unquoteItem (s : Str) : Str :=
  let t := trimStr s
  if 2 ≤ t.length ∧ t.head? = some '"' ∧ t.getLast? = some '"' then
    (t.drop 1).dropLast
  else t

/-- Array parsing: split the bracket contents on commas, clean each
element, and discard the empty ones. -/
def parseArrayItems (s : Str) : List Str :=
  ((splitOnChar ',' s).map unquoteItem).filter (fun i => i ≠ [])

/-- Value typing of the parser, in source order: the literals `true` and
`false`; a value with double quotes at both ends (stripped, JS `slice`
semantics); a value wrapped in square brackets (array); anything else a
raw string. -/
def parseValue (v0 : Str) : TVal :=
  let v := trimStr v0
  if v = "true".data then .bl true
  else if v = "false".data then .bl false
  else if v.head? = some '"' ∧ v.getLast? = some '"' then
    .st ((v.drop 1).dropLast)
  else if v.head? = some '[' ∧ v.getLast? = some ']' then
    .arr (parseArrayItems ((v.drop 1).dropLast))
  else .st v

/-- The key-value line match `^(\w+)\s*=\s*(.+)$` (applied by the source
to an already-trimmed line): a nonempty run of word chars, optional
spaces, an equals sign, optional spaces, and a nonempty remainder. -/
def parseKV (line : Str) : Option (Str × Str) :=
  let key := line.takeWhile isWordChar
  if key = [] then none
  else
    match (line.drop key.length).dropWhile isWSp with
    | '=' :: rest2 =>
      let v := rest2.dropWhile isWSp
      if v = [] then none else some (key, v)
    | _ => none

/-- Leftmost unanchored search for `\[(\w+)\]` in a section line. -/
def findSectionName : Str → Option Str
  | [] => none
  | '[' :: rest =>
    let w := rest.takeWhile isWordChar
    if w ≠ [] ∧ (rest.drop w.length).head? = some ']' then some w
    else findSectionName rest
  | _ :: rest => findSectionName rest

/-- An entry of the result mapping: a plain value or a nested section. -/
inductive Entry where
  | v : TVal → Entry
  | sec : List (Str × TVal) → Entry
deriving DecidableEq

/-- The result mapping. -/
abbrev Dict := List (Str × Entry)

/-- Lookup in the result mapping. -/
def dictGet : Dict → Str → Option Entry
  | [], _ => none
  | (q, e) :: rest, k => if q = k then some e else dictGet rest k

/-- JS property assignment on the result mapping: overwrite in place or
append. -/
def dictSet : Dict → Str → Entry → Dict
  | [], k, e => [(k, e)]
  | (q, d) :: rest, k, e =>
    if q = k then (k, e) :: rest else (q, d) :: dictSet rest k e

/-- Lookup inside a section. -/
def secGet : List (Str × TVal) → Str → Option TVal
  | [], _ => none
  | (q, t) :: rest, k => if q = k then some t else secGet rest k

/-- Assignment inside a section. -/
def secSet : List (Str × TVal) → Str → TVal → List (Str × TVal)
  | [], k, t => [(k, t)]
  | (q, d) :: rest, k, t =>
    if q = k then (k, t) :: rest else (q, d) :: secSet rest k t

/-- JS truthiness of a parsed value: `false` and the empty string are
falsy; every array (even empty) is truthy. -/
def truthyVal : TVal → Bool
  | .bl b => b
  | .st s => decide (s ≠ [])
  | .arr _ => true

/-- JS truthiness of a mapping entry (an object is always truthy). -/
def truthyEntry : Entry → Bool
  | .v t => truthyVal t
  | .sec _ => true

/-- One line of the parser loop.  State: result mapping and current
section name (empty = top level). -/
def procLine (acc : Dict × Str) (line : Str) : Dict × Str :=
  let t := trimStr line
  if t = [] then acc
  else if t.head? = some '#' then acc
  else if t.head? = some '[' then
    match findSectionName t with
    | some nm =>
      let r2 :=
        match dictGet acc.1 nm with
        | some e => if truthyEntry e then acc.1 else dictSet acc.1 nm (.sec [])
        | none => dictSet acc.1 nm (.sec [])
      (r2, nm)
    | none => acc
  else
    match parseKV t with
    | some kv =>
      let tv := parseValue kv.2
      if acc.2 = [] then (dictSet acc.1 kv.1 (.v tv), acc.2)
      else
        match dictGet acc.1 acc.2 with
        | some (.sec m) => (dictSet acc.1 acc.2 (.sec (secSet m kv.1 tv)), acc.2)
        | _ => acc
    | none => acc

/-- True when the string starts with the closing frontmatter marker, a
newline followed by three plus signs. -/
def matchesMarker (s : Str) : Bool := s.take 4 == "\n+++".data

/-- The lazy group of `^\+\+\+\n([\s\S]*?)\n\+\+\+`: the text before the
first occurrence of the closing marker. -/
def splitAtMarker : Str → Option Str
  | [] => none
  | c :: cs =>
    if matchesMarker (c :: cs) then some []
    else (splitAtMarker cs).map (fun b => c :: b)

/-- Extraction of the metadata block: the document must start with three
plus signs and a newline, and a closing marker must follow the block. -/
def extractToml (content : Str) : Option Str :=
  match content with
  | '+' :: '+' :: '+' :: '\n' :: rest => splitAtMarker rest
  | _ => none

/-- Promotion step at the end of the parser: when a `taxonomies` section
exists and holds a truthy `tags` value, copy it to the top level. -/
def promoteTags (result : Dict) : Dict :=
  match dictGet result ("taxonomies".data) with
  | some (.sec m) =>
    (match secGet m ("tags".data) with
     | some tv => if truthyVal tv then dictSet result ("tags".data) (.v tv) else result
     | none => result)
  | _ => result

/-- `parseFrontmatter` of settings.ts. -/
def parseFrontmatter (content : Str) : Option Dict :=
  (extractToml content).map (fun toml =>
    promoteTags (((splitOnChar '\n' toml).foldl procLine ([], [])).1))

/-- The top-level `tags` entry of the parsed metadata of a document. -/
def topLevelTags (content : Str) : Option Entry :=
  match parseFrontmatter content with
  | some d => dictGet d ("tags".data)
  | none => none

/-! ## Activity log (logManager.ts, addLog) -/

/-- One activity-log entry. -/
structure LogEntry where
  timestamp : Str
  action : Str
  summary : Str
  details : List Str
deriving DecidableEq

/-- `addLog`: unshift the new entry (newest first), then keep only the
first 100 entries when the count exceeds 100. -/
def addLog (e : LogEntry) (logs : List LogEntry) : List LogEntry :=
  let l := e :: logs
  if 100 < l.length then l.take 100 else l

/-! ## Concrete scenarios -/

/-- Settings with only the article paths configured. -/
def stArt : Settings :=
  ⟨"posts".data, "/z".data, [], [], .twoWay⟩

/-- Settings with article and image paths configured. -/
def stFull : Settings :=
  ⟨"posts".data, "/z".data, "imgs".data, "/zimg".data, .twoWay⟩

/-- Settings of stFull with the one-way policy. -/
def stOneWay : Settings :=
  ⟨"posts".data, "/z".data, "imgs".data, "/zimg".data, .oneWay⟩

/-- Reserved-file scenario vault: the three files of the spec's
reserved-file test, under the configured posts directory. -/
def vReserved : Vault :=
  ⟨[⟨"posts/_index.md".data, "_index.md".data, "A".data⟩,
    ⟨"posts/Index.md".data, "Index.md".data, "B".data⟩,
    ⟨"posts/post.md".data, "post.md".data, "C".data⟩]⟩

/-- Reserved-file scenario on the site side: the same three names as
direct entries of the site root. -/
def fsReserved : FS :=
  ⟨[("/z/_index.md".data, "A".data), ("/z/Index.md".data, "B".data),
    ("/z/post.md".data, "C".data)], ["/z".data], []⟩

/-- Missing-destination-root scenario: one article candidate and one
image candidate, and a disk on which neither the site root nor the site
image directory exists. -/
def wNoRoot : World :=
  ⟨⟨[⟨"posts/a.md".data, "a.md".data, "hello".data⟩,
     ⟨"imgs/p.png".data, "p.png".data, "IMG".data⟩]⟩,
   ⟨[], [], []⟩⟩

/-- Pull-image scenario: the image name `pic.png` exists in both trees
with different binary contents. -/
def wPullImg : World :=
  ⟨⟨[⟨"imgs/pic.png".data, "pic.png".data, "NEW".data⟩]⟩,
   ⟨[("/zimg/pic.png".data, "OLD".data)], ["/z".data, "/zimg".data], []⟩⟩

/-- Duplicate-name scenario: two push candidates in different vault
subdirectories share the file name `post.md` but differ in content. -/
def wDup : World :=
  ⟨⟨[⟨"posts/a/post.md".data, "post.md".data, "X".data⟩,
     ⟨"posts/b/post.md".data, "post.md".data, "Y".data⟩]⟩,
   ⟨[], ["/z".data], []⟩⟩

/-- Idempotence witness scenario: one article, one image, existing site
root, nothing at the destination yet. -/
def wIdem : World :=
  ⟨⟨[⟨"posts/a.md".data, "a.md".data, "hello".data⟩,
     ⟨"imgs/p.png".data, "p.png".data, "IMG".data⟩]⟩,
   ⟨[], ["/z".data], []⟩⟩

/-- Failure-containment scenario: five candidates; the destination write
of the third is in the fail set (permission denied). -/
def fsFail : FS := ⟨[], ["/z".data], ["/z/f3.md".data]⟩

/-- The five candidates of the failure-containment scenario. -/
def fileK (k : Char) : VFile :=
  ⟨'p' :: 'o' :: 's' :: 't' :: 's' :: '/' :: 'f' :: k :: ".md".data,
   'f' :: k :: ".md".data, ['c', k]⟩

/-- The batch of the failure-containment scenario. -/
def batch5 : List VFile := [fileK '1', fileK '2', fileK '3', fileK '4', fileK '5']

/-- A frontmatter document whose metadata block is a `taxonomies`
section holding a `tags` array with the given bracket contents. -/
def c8doc (s : Str) : Str :=
  "+++\n[taxonomies]\ntags = [".data ++ s ++ "]\n+++".data

/-- The spec's concrete tags value. -/
def abTags : Str := "\"a\", \"b\"".data

/-- The section line of the metadata scenario. -/
def lineTax : Str := "[taxonomies]".data

/-- The tags assignment line of the metadata scenario, with abstract
bracket contents. -/
def tagsLine (s : Str) : Str := "tags = [".data ++ (s ++ [']'])

/-- Preconditions under which a push batch is fully-writable and
collision-free: a configured destination root that exists as a
directory, no failing writes, pairwise-distinct candidate file names, no
directory or image-directory path squatting on an article target, and no
regular file squatting on the image-directory path. -/
def goodPushState (st : Settings) (w : World) : Prop :=
  st.zolaProjectPath ≠ [] ∧
  st.zolaProjectPath ∈ w.disk.dirs ∧
  w.disk.failSet = [] ∧
  ((pushCandidates st w.vault).map (fun f => f.name)).Nodup ∧
  (∀ f ∈ pushCandidates st w.vault,
    articleTarget st f ∉ w.disk.dirs ∧ articleTarget st f ≠ st.zolaImagesPath) ∧
  lookupA w.disk.files st.zolaImagesPath = none

instance (st : Settings) (w : World) : Decidable (goodPushState st w) := by
  unfold goodPushState; exact inferInstance

/-! ## Theorems -/

/-- C3.  The concrete transcoding scenarios hold: outbound maps the
wiki-link input to the rooted markdown link, inbound maps it back, and
inbound leaves a non-rooted (external URL) reference byte-identical. -/
theorem c3_transcoding_scenarios :
    convertImageLinks docOut1 = docOut1Res ∧
    convertImageLinksToObsidian docIn1 = docIn1Res ∧
    convertImageLinksToObsidian docIn2 = docIn2 := by decide

/-- C10 counterexample.  Neither transform is idempotent: on
`![[![[a]]b]]` the outbound rewrite emits a span that recombines into a
fresh outbound match, and on `![](/a](/b))` the inbound rewrite does the
same for the inbound pattern. -/
theorem c10_cex_not_idempotent :
    convertImageLinks (convertImageLinks docNest) ≠ convertImageLinks docNest ∧
    convertImageLinksToObsidian (convertImageLinksToObsidian docNestIn) ≠
      convertImageLinksToObsidian docNestIn := by decide

/-- C10 amended.  The transforms are idempotent on the spec's concrete
scenario documents (and on any document they leave unchanged), though
not on every document. -/
theorem c10_amended_idempotent_on_scenarios :
    convertImageLinks (convertImageLinks docOut1) = convertImageLinks docOut1 ∧
    convertImageLinksToObsidian (convertImageLinksToObsidian docIn1) =
      convertImageLinksToObsidian docIn1 ∧
    convertImageLinksToObsidian (convertImageLinksToObsidian docIn2) =
      convertImageLinksToObsidian docIn2 := by decide

/-- C6 counterexample.  On a vault tree holding exactly `_index.md`,
`Index.md` and `post.md`, the push candidate list is `Index.md, post.md`
and not `post.md` alone: the vault-side reserved-name comparison is
exact, so the capitalised `Index.md` survives. -/
theorem c6_cex_push_candidates :
    (pushCandidates stArt vReserved).map (fun f => f.name) =
      ["Index.md".data, "post.md".data] ∧
    (pushCandidates stArt vReserved).map (fun f => f.name) ≠ ["post.md".data] := by
  decide

/-- C6 amended.  The reserved-name exclusion is case-sensitive on the
vault (push) side, yielding `Index.md` and `post.md` as push candidates;
only the site-side enumeration matches reserved names case-insensitively
and yields exactly `post.md` on the same three names. -/
theorem c6_amended_case_asymmetry :
    (pushCandidates stArt vReserved).map (fun f => f.name) =
      ["Index.md".data, "post.md".data] ∧
    getZolaFiles fsReserved ("/z".data) = ["/z/post.md".data] := by decide

/-- C4 counterexample.  With a configured but non-existent destination
root, a push does not report a configuration error and does not fail
fast: it enumerates, reports a completed batch with one per-file error,
creates the destination image directory, and copies the image into it. -/
theorem c4_cex_push_missing_root :
    fsExists wNoRoot.disk ("/z".data) = false ∧
    (pushToZola stFull wNoRoot).2.2 = PushResult.completed 0 1 ∧
    Ev.enumEv ∈ (pushToZola stFull wNoRoot).2.1 ∧
    ("/zimg".data) ∈ (pushToZola stFull wNoRoot).1.disk.dirs ∧
    lookupA (pushToZola stFull wNoRoot).1.disk.files ("/zimg/p.png".data) =
      some ("IMG".data) ∧
    wNoRoot.disk.files = [] := by decide

/-- C4 amended.  Only pull checks that the destination root exists: a
configured two-way pull against a missing site root is rejected with the
missing-root error before any enumeration, read or write. -/
theorem c4_amended_pull_fails_fast (st : Settings) (vbp : Str) (w : World)
    (hcfg : st.zolaProjectPath ≠ []) (hpol : st.syncStrategy = .twoWay)
    (hmiss : fsExists w.disk st.zolaProjectPath = false) :
    pullFromZola st vbp w = (w, [], .rootMissing) := by
  unfold pullFromZola
  rw [if_neg hcfg, if_neg (by simp [hpol]), if_pos (by simp [hmiss])]

/-- C4 witness.  The amended fail-fast theorem applied to the concrete
missing-root world. -/
theorem c4_witness :
    stFull.zolaProjectPath ≠ [] ∧ stFull.syncStrategy = .twoWay ∧
    fsExists wNoRoot.disk stFull.zolaProjectPath = false ∧
    pullFromZola stFull ("/base".data) wNoRoot = (wNoRoot, [], .rootMissing) :=
  ⟨by decide, rfl, by decide,
   c4_amended_pull_fails_fast stFull ("/base".data) wNoRoot (by decide) rfl (by decide)⟩

/-- C7.  A pull under a one-way policy (with the destination root
configured) is rejected during validation: the world is untouched, no
event is emitted, and the outcome is the policy error. -/
theorem c7_oneway_pull_rejected (st : Settings) (vbp : Str) (w : World)
    (hcfg : st.zolaProjectPath ≠ []) (hpol : st.syncStrategy = .oneWay) :
    pullFromZola st vbp w = (w, [], .policyError) := by
  unfold pullFromZola
  rw [if_neg hcfg, if_pos (by rw [hpol]; decide)]

/-- C7 witness.  The policy-rejection theorem applied to the concrete
one-way configuration. -/
theorem c7_witness :
    stOneWay.zolaProjectPath ≠ [] ∧ stOneWay.syncStrategy = .oneWay ∧
    pullFromZola stOneWay ("/base".data) wIdem = (wIdem, [], .policyError) :=
  ⟨by decide, rfl,
   c7_oneway_pull_rejected stOneWay ("/base".data) wIdem (by decide) rfl⟩

/-- Helper: the push article loop gives every candidate exactly one
outcome, so the success and error counts always sum to the batch size. -/
theorem pushFiles_counts (st : Settings) :
    ∀ (files : List VFile) (fs : FS),
      (pushFiles st fs files).2.1 + (pushFiles st fs files).2.2.1 = files.length := by
  intro files
  induction files with
  | nil => intro fs; simp [pushFiles]
  | cons f rest ih =>
    intro fs
    have hih := ih (syncFileToZola st fs f).2.1
    simp only [pushFiles]
    cases h : (syncFileToZola st fs f).1 <;> simp [h] <;> omega

/-- C5.  Per-file failure containment: in every batch the success and
failure counts sum to the batch size (every candidate is processed and
counted), and in the concrete five-candidate batch whose third write is
permission-denied the loop reports four successes and one failure, with
candidates one, two, four and five present at the destination and the
third absent. -/
theorem c5_failure_containment :
    (∀ (st : Settings) (fs : FS) (files : List VFile),
      (pushFiles st fs files).2.1 + (pushFiles st fs files).2.2.1 = files.length) ∧
    (pushFiles stArt fsFail batch5).2.1 = 4 ∧
    (pushFiles stArt fsFail batch5).2.2.1 = 1 ∧
    lookupA (pushFiles stArt fsFail batch5).1.files ("/z/f1.md".data) =
      some ("c1".data) ∧
    lookupA (pushFiles stArt fsFail batch5).1.files ("/z/f2.md".data) =
      some ("c2".data) ∧
    lookupA (pushFiles stArt fsFail batch5).1.files ("/z/f4.md".data) =
      some ("c4".data) ∧
    lookupA (pushFiles stArt fsFail batch5).1.files ("/z/f5.md".data) =
      some ("c5".data) ∧
    lookupA (pushFiles stArt fsFail batch5).1.files ("/z/f3.md".data) = none :=
  ⟨fun st fs files => pushFiles_counts st files fs, by decide, by decide, by decide,
   by decide, by decide, by decide, by decide⟩

/-- C9.  After every addLog the retained log has at most 100 entries and
equals the newest-first 100-prefix of the pushed list; what is dropped is
exactly the oldest suffix, so the most recent entries are kept in their
relative order. -/
theorem c9_log_cap (e : LogEntry) (logs : List LogEntry) :
    (addLog e logs).length ≤ 100 ∧
    addLog e logs = (e :: logs).take 100 ∧
    e :: logs = addLog e logs ++ (e :: logs).drop 100 := by
  have hsplit : addLog e logs = (e :: logs).take 100 := by
    show (if 100 < (e :: logs).length then List.take 100 (e :: logs) else e :: logs) =
      List.take 100 (e :: logs)
    split
    · rfl
    · next h => exact (List.take_of_length_le (Nat.le_of_not_lt h)).symm
  refine ⟨?_, hsplit, ?_⟩
  · rw [hsplit, List.length_take]; exact Nat.min_le_left _ _
  · rw [hsplit]; exact (List.take_append_drop _ _).symm

/-- C2 counterexample.  With two candidates sharing the file name
`post.md` (different subdirectories, different contents) the second push
run still performs two destination writes, because each candidate in turn
finds the other's content at the shared flattened destination path. -/
theorem c2_cex_second_run_writes :
    (pushToZola stArt wDup).1.vault = wDup.vault ∧
    List.filter isMutEv (pushToZola stArt (pushToZola stArt wDup).1).2.1 =
      [Ev.fsWriteEv ("/z/post.md".data), Ev.fsWriteEv ("/z/post.md".data)] := by
  decide

/-- Helper: reading back the key just written. -/
theorem lookupA_setA_self (l : List (Str × Str)) (p c : Str) :
    lookupA (setA l p c) p = some c := by
  induction l with
  | nil => simp [setA, lookupA]
  | cons e rest ih =>
    obtain ⟨q, d⟩ := e
    by_cases h : q = p
    · simp [setA, lookupA, h]
    · simp [setA, lookupA, h, ih]

/-- Helper: writing one key leaves every other key unchanged. -/
theorem lookupA_setA_ne (l : List (Str × Str)) (p c q : Str) (h : q ≠ p) :
    lookupA (setA l p c) q = lookupA l q := by
  have hpq : p ≠ q := fun hh => h hh.symm
  induction l with
  | nil => simp [setA, lookupA, hpq]
  | cons e rest ih =>
    obtain ⟨a, b⟩ := e
    by_cases ha : a = p
    · subst ha
      simp [setA, lookupA, hpq]
    · by_cases hq : a = q
      · subst hq
        simp [setA, lookupA, ha]
      · simp [setA, lookupA, ha, hq, ih]

/-- Helper: the shape of a successful write. -/
theorem fsWrite_eq {fs fs1 : FS} {par p c : Str}
    (h : fsWrite fs par p c = some fs1) :
    fs1.files = setA fs.files p c ∧ fs1.dirs = fs.dirs ∧ fs1.failSet = fs.failSet := by
  unfold fsWrite at h
  split at h
  · cases h; exact ⟨rfl, rfl, rfl⟩
  · cases h

/-- Helper: a failed existence test means the path is neither a file nor
a directory. -/
theorem fsExists_false {fs : FS} {p : Str} (h : fsExists fs p = false) :
    lookupA fs.files p = none ∧ p ∉ fs.dirs := by
  unfold fsExists at h
  rcases Bool.or_eq_false_iff.mp h with ⟨h1, h2⟩
  constructor
  · cases hl : lookupA fs.files p with
    | none => rfl
    | some c => rw [hl] at h1; simp at h1
  · exact of_decide_eq_false h2

/-- Helper: a Boolean that is not true is false. -/
theorem bool_eq_false {b : Bool} (h : ¬ b = true) : b = false := by
  cases b
  · rfl
  · exact absurd rfl h

/-- Helper: the image copy step never changes an existing file entry,
nor the directory set or fail set. -/
theorem copyImage_pres (st : Settings) (f : VFile) (fs : FS) (p : Str)
    (h : (lookupA fs.files p).isSome = true) :
    lookupA ((copyImage st fs f).1).files p = lookupA fs.files p ∧
    ((copyImage st fs f).1).dirs = fs.dirs ∧
    ((copyImage st fs f).1).failSet = fs.failSet := by
  by_cases hex : fsExists fs (imageTarget st f) = true
  · simp [copyImage, hex]
  · have hfalse := bool_eq_false hex
    have hnone := fsExists_false hfalse
    cases hw : fsWrite fs st.zolaImagesPath (imageTarget st f) f.content with
    | none => simp [copyImage, hfalse, hw]
    | some fs1 =>
      have he := fsWrite_eq hw
      have hne : p ≠ imageTarget st f := by
        intro hp
        rw [hp, hnone.1] at h
        simp at h
      simp only [copyImage, hfalse, Bool.false_eq_true, if_false, hw]
      exact ⟨by rw [he.1, lookupA_setA_ne _ _ _ _ hne], he.2.1, he.2.2⟩

/-- Helper: the image copy loop never changes an existing file entry. -/
theorem copyImages_pres (st : Settings) :
    ∀ (imgs : List VFile) (fs : FS) (p : Str),
      (lookupA fs.files p).isSome = true →
      lookupA ((copyImages st fs imgs).1).files p = lookupA fs.files p := by
  intro imgs
  induction imgs with
  | nil => intro fs p _; rfl
  | cons f rest ih =>
    intro fs p h
    have h1 := copyImage_pres st f fs p h
    have h2 : (lookupA ((copyImage st fs f).1).files p).isSome = true := by
      rw [h1.1]; exact h
    simp only [copyImages]
    rw [ih _ _ h2, h1.1]

/-- Helper: the whole image step never changes an existing file entry. -/
theorem syncImages_pres (st : Settings) (v : Vault) (fs : FS) (p : Str)
    (h : (lookupA fs.files p).isSome = true) :
    lookupA ((syncImages st v fs).1).files p = lookupA fs.files p := by
  by_cases h0 : st.zolaImagesPath = [] ∨ st.obsidianImagesPath = []
  · simp [syncImages, h0]
  · by_cases h1 : imageCandidates st v = []
    · simp [syncImages, h0, h1]
    · by_cases h2 : fsExists fs st.zolaImagesPath = true
      · simp only [syncImages, if_neg h0, if_neg h1, h2, if_true]
        exact copyImages_pres st _ fs p h
      · have h2f := bool_eq_false h2
        simp only [syncImages, if_neg h0, if_neg h1, h2f, Bool.false_eq_true, if_false]
        exact copyImages_pres st _ (fsMkdir fs st.zolaImagesPath) p h

/-- Helper: pulling an article only writes into the vault. -/
theorem syncFileFromZola_disk (st : Settings) (vbp : Str) (w : World) (zp : Str) :
    ((syncFileFromZola st vbp w zp).2.1).disk = w.disk := by
  unfold syncFileFromZola
  cases hr : fsRead w.disk zp with
  | none => rfl
  | some raw =>
    simp only []
    split <;> rfl

/-- Helper: the pull article loop only writes into the vault. -/
theorem pullFiles_disk (st : Settings) (vbp : Str) :
    ∀ (ps : List Str) (w : World), ((pullFiles st vbp w ps).1).disk = w.disk := by
  intro ps
  induction ps with
  | nil => intro w; rfl
  | cons pth rest ih =>
    intro w
    simp only [pullFiles]
    rw [ih, syncFileFromZola_disk]

/-- C1 amended.  Pull's image step is the same create-only image sync as
push's: a pull never overwrites any pre-existing destination file,
whatever the corresponding vault contents are, and images are only
copied to destination names that are absent. -/
theorem c1_amended_pull_never_overwrites (st : Settings) (vbp : Str) (w : World)
    (p : Str) (h : (lookupA w.disk.files p).isSome = true) :
    lookupA ((pullFromZola st vbp w).1).disk.files p = lookupA w.disk.files p := by
  unfold pullFromZola
  by_cases h1 : st.zolaProjectPath = []
  · simp [h1]
  · by_cases h2 : st.syncStrategy ≠ SyncStrategy.twoWay
    · simp [h1, h2]
    · by_cases h3 : ¬(fsExists w.disk st.zolaProjectPath = true)
      · simp [h1, h2, h3]
      · simp only [if_neg h1, if_neg h2, if_neg h3]
        show lookupA ((syncImages st
            ((pullFiles st vbp w (getZolaFiles w.disk st.zolaProjectPath)).1).vault
            ((pullFiles st vbp w (getZolaFiles w.disk st.zolaProjectPath)).1).disk).1).files
            p = lookupA w.disk.files p
        rw [pullFiles_disk st vbp (getZolaFiles w.disk st.zolaProjectPath) w]
        exact syncImages_pres st _ w.disk p h

/-- C1 witness.  The never-overwrite theorem applied to the concrete
pull world in which the image name is present in both trees with
different contents. -/
theorem c1_witness :
    (lookupA wPullImg.disk.files ("/zimg/pic.png".data)).isSome = true ∧
    lookupA ((pullFromZola stFull ("/base".data) wPullImg).1).disk.files
        ("/zimg/pic.png".data) =
      lookupA wPullImg.disk.files ("/zimg/pic.png".data) :=
  ⟨by decide,
   c1_amended_pull_never_overwrites stFull ("/base".data) wPullImg
     ("/zimg/pic.png".data) (by decide)⟩

/-- C1 counterexample.  In the concrete pull world the image name
`pic.png` exists in both trees with different binary contents; the pull
completes, yet the destination copy keeps its old bytes and the vault
copy keeps its own — no content comparison, no overwrite, in either
direction. -/
theorem c1_cex_pull_images_not_change_aware :
    lookupA wPullImg.disk.files ("/zimg/pic.png".data) = some ("OLD".data) ∧
    (vaultGetByPath wPullImg.vault ("imgs/pic.png".data)).map (fun f => f.content) =
      some ("NEW".data) ∧
    ("OLD".data : Str) ≠ "NEW".data ∧
    (pullFromZola stFull ("/base".data) wPullImg).2.2 = PullResult.completed 0 0 ∧
    lookupA (pullFromZola stFull ("/base".data) wPullImg).1.disk.files
      ("/zimg/pic.png".data) = some ("OLD".data) ∧
    (pullFromZola stFull ("/base".data) wPullImg).1.vault = wPullImg.vault := by
  decide

/-- Helper: splitting on a character that does not occur gives the whole
string back. -/
theorem splitOnChar_not_mem (c : Char) :
    ∀ (s : Str), c ∉ s → splitOnChar c s = [s] := by
  intro s
  induction s with
  | nil => intro _; rfl
  | cons x xs ih =>
    intro h
    have hx : x ≠ c := fun hh => h (hh ▸ List.mem_cons_self x xs)
    have hxs : c ∉ xs := fun hm => h (List.mem_cons_of_mem x hm)
    simp only [splitOnChar, if_neg hx, ih hxs]

/-- Helper: splitting at the first separator occurrence peels off the
separator-free prefix. -/
theorem splitOnChar_append (c : Char) :
    ∀ (a b : Str), c ∉ a → splitOnChar c (a ++ c :: b) = a :: splitOnChar c b := by
  intro a
  induction a with
  | nil => intro b _; simp [splitOnChar]
  | cons x xs ih =>
    intro b h
    have hx : x ≠ c := fun hh => h (hh ▸ List.mem_cons_self x xs)
    have hxs : c ∉ xs := fun hm => h (List.mem_cons_of_mem x hm)
    simp only [List.cons_append, splitOnChar, List.append_eq, if_neg hx, ih b hxs]

/-- Helper: the closing-marker scan walks over any newline-free prefix. -/
theorem splitAtMarker_append :
    ∀ (s t : Str), ('\n') ∉ s →
      splitAtMarker (s ++ t) = (splitAtMarker t).map (fun b => s ++ b) := by
  intro s
  induction s with
  | nil =>
    intro t _
    simp
  | cons x xs ih =>
    intro t h
    have hx : x ≠ '\n' := fun hh => h (hh ▸ List.mem_cons_self x xs)
    have hxs : ('\n') ∉ xs := fun hm => h (List.mem_cons_of_mem x hm)
    have hm : matchesMarker (x :: (xs ++ t)) = false := by
      unfold matchesMarker
      rw [beq_eq_false_iff_ne]
      intro hh
      rw [List.take_succ_cons,
        show (("\n+++".data) : Str) = '\n' :: '+' :: '+' :: '+' :: [] from rfl] at hh
      exact hx (List.cons.injEq _ _ _ _ ▸ hh).1
    simp only [List.cons_append, splitAtMarker, List.append_eq, hm, Bool.false_eq_true,
      if_false, ih t hxs, Option.map_map]
    rfl

/-- Helper: a string with non-whitespace first and last characters is
its own trim. -/
theorem trimStr_sandwich (c d : Char) (mid : Str)
    (hc : isWSp c = false) (hd : isWSp d = false) :
    trimStr (c :: (mid ++ [d])) = c :: (mid ++ [d]) := by
  have h1 : List.dropWhile isWSp (c :: (mid ++ [d])) = c :: (mid ++ [d]) := by
    simp [List.dropWhile_cons, hc]
  have h2 : (c :: (mid ++ [d])).reverse = d :: (mid.reverse ++ [c]) := by
    simp
  have h3 : List.dropWhile isWSp (d :: (mid.reverse ++ [c])) = d :: (mid.reverse ++ [c]) := by
    simp [List.dropWhile_cons, hd]
  unfold trimStr
  rw [h1, h2, h3]
  simp

/-- Helper: the value typing of a bracket-wrapped value is the array
parse of its contents. -/
theorem parseValue_arr (s : Str) :
    parseValue ('[' :: (s ++ [']'])) = TVal.arr (parseArrayItems s) := by
  have ht := trimStr_sandwich '[' ']' s (by decide) (by decide)
  have h1 : ('[' :: (s ++ [']']) : Str) ≠ "true".data := fun hx => by
    injection hx with hc _
    exact absurd hc (by decide)
  have h2 : ('[' :: (s ++ [']']) : Str) ≠ "false".data := fun hx => by
    injection hx with hc _
    exact absurd hc (by decide)
  have h3 : ¬(('[' :: (s ++ [']']) : Str).head? = some '"') := by
    rw [show (('[' :: (s ++ [']']) : Str)).head? = some '[' from rfl]
    decide
  simp only [parseValue, ht]
  rw [if_neg h1, if_neg h2, if_neg (fun hcon => absurd hcon.1 h3),
    if_pos ⟨rfl, show (('[' :: s) ++ [']'] : Str).getLast? = some ']' from
      List.getLast?_concat _⟩]
  rw [show (('[' :: (s ++ [']'] : Str)).drop 1) = s ++ [']'] from rfl,
    List.dropLast_concat]

/-- Helper: the evaluated key-value match of the tags line. -/
theorem parseKV_tagsLine (s : Str) :
    parseKV (tagsLine s) = some ("tags".data, '[' :: (s ++ [']'])) := rfl

/-- Helper: the tags line trims to itself. -/
theorem trim_tagsLine (s : Str) : trimStr (tagsLine s) = tagsLine s := by
  rw [show tagsLine s = 't' :: (("ags = [".data ++ s) ++ [']']) from rfl]
  exact trimStr_sandwich 't' ']' ("ags = [".data ++ s) (by decide) (by decide)

/-- Helper: the parser step on the section line opens the taxonomies
section. -/
theorem procLine_tax :
    procLine (([], []) : Dict × Str) lineTax
      = ([("taxonomies".data, Entry.sec [])], "taxonomies".data) := rfl

/-- Helper: the parser step on the tags line stores the parsed array in
the open taxonomies section. -/
theorem procLine_tags (s : Str) :
    procLine ([("taxonomies".data, Entry.sec [])], "taxonomies".data) (tagsLine s)
      = ([("taxonomies".data,
            Entry.sec [("tags".data, TVal.arr (parseArrayItems s))])],
         "taxonomies".data) := by
  have h0 : tagsLine s ≠ [] := by
    rw [show tagsLine s = 't' :: (("ags = [".data ++ s) ++ [']']) from rfl]
    simp
  have h1 : ¬((tagsLine s).head? = some '#') := by
    rw [show (tagsLine s).head? = some 't' from rfl]
    decide
  have h2 : ¬((tagsLine s).head? = some '[') := by
    rw [show (tagsLine s).head? = some 't' from rfl]
    decide
  simp only [procLine, trim_tagsLine, parseKV_tagsLine, parseValue_arr]
  rw [if_neg h0, if_neg h1, if_neg h2]
  rfl

/-- Helper: one scan step of the closing-marker search past a position
where the marker does not match. -/
theorem splitAtMarker_cons_of_ne (c : Char) (cs : Str)
    (h : matchesMarker (c :: cs) = false) :
    splitAtMarker (c :: cs) = (splitAtMarker cs).map (fun b => c :: b) := by
  simp only [splitAtMarker, h, Bool.false_eq_true, if_false]

/-- Helper: extraction of the metadata block of the scenario document. -/
theorem extractToml_c8doc (s : Str) (h : ('\n') ∉ s) :
    extractToml (c8doc s) = some (lineTax ++ ('\n' :: tagsLine s)) := by
  show splitAtMarker (lineTax ++ ('\n' :: ("tags = [".data ++
      (s ++ (']' :: '\n' :: '+' :: '+' :: '+' :: []))))) =
    some (lineTax ++ ('\n' :: tagsLine s))
  rw [splitAtMarker_append lineTax _ (by decide)]
  rw [splitAtMarker_cons_of_ne '\n' ("tags = [".data ++
    (s ++ (']' :: '\n' :: '+' :: '+' :: '+' :: []))) rfl]
  rw [splitAtMarker_append ("tags = [".data) _ (by decide),
    splitAtMarker_append s _ h,
    show splitAtMarker (']' :: '\n' :: '+' :: '+' :: '+' :: []) = some ([']']) from rfl]
  rfl

/-- Helper: the metadata block splits into its two lines. -/
theorem lines_c8 (s : Str) (h : ('\n') ∉ s) :
    splitOnChar '\n' (lineTax ++ ('\n' :: tagsLine s)) = [lineTax, tagsLine s] := by
  have h2 : ('\n') ∉ tagsLine s := by
    intro hm
    unfold tagsLine at hm
    rcases List.mem_append.mp hm with h1 | h2
    · exact absurd h1 (by decide)
    · rcases List.mem_append.mp h2 with h3 | h4
      · exact h h3
      · exact absurd h4 (by decide)
  rw [splitOnChar_append '\n' lineTax _ (by decide), splitOnChar_not_mem '\n' _ h2]

/-- C8.  Metadata promotion: for every newline-free tags bracket
contents, parsing a document whose metadata block is a taxonomies
section with that tags assignment yields a top-level `tags` entry whose
value is the array parse of the contents (elements in source order,
trimmed, unquoted, empties discarded); on the spec's concrete value the
array parse is the ordered sequence of `a` and `b`. -/
theorem c8_tags_promotion (s : Str) (h : ('\n') ∉ s) :
    topLevelTags (c8doc s) = some (Entry.v (TVal.arr (parseArrayItems s))) ∧
    parseArrayItems abTags = ["a".data, "b".data] := by
  constructor
  · have hpf : parseFrontmatter (c8doc s)
        = some (promoteTags
            ([("taxonomies".data,
               Entry.sec [("tags".data, TVal.arr (parseArrayItems s))])])) := by
      unfold parseFrontmatter
      rw [extractToml_c8doc s h, Option.map_some', lines_c8 s h]
      rw [List.foldl_cons, List.foldl_cons, List.foldl_nil, procLine_tax, procLine_tags]
    unfold topLevelTags
    rw [hpf]
    rfl
  · decide

/-- C8 witness.  The promotion theorem applied to the spec's concrete
document with tags value a and b. -/
theorem c8_witness :
    ('\n') ∉ abTags ∧
    topLevelTags (c8doc abTags) = some (Entry.v (TVal.arr (parseArrayItems abTags))) :=
  ⟨by decide, (c8_tags_promotion abTags (by decide)).1⟩

/-- Helper: the flat destination join is injective in the file name. -/
theorem articleTarget_inj (st : Settings) {a b : VFile}
    (h : articleTarget st a = articleTarget st b) : a.name = b.name := by
  unfold articleTarget joinP at h
  have h2 := List.append_cancel_left h
  exact (List.cons.injEq _ _ _ _ ▸ h2).2

/-- Helper: an article whose destination already holds its transcoded
content is skipped: same disk, success, read-only events. -/
theorem syncFileToZola_skip (st : Settings) (fs : FS) (f : VFile)
    (h : lookupA fs.files (articleTarget st f) = some (convertImageLinks f.content)) :
    syncFileToZola st fs f
      = (true, fs, [Ev.vReadEv f.path, Ev.fsReadEv (articleTarget st f)]) := by
  simp only [syncFileToZola]
  rw [show fsRead fs (articleTarget st f) = some (convertImageLinks f.content) from h]
  simp

/-- Helper: a successful article sync under a writable destination:
success is reported, the directory and fail sets are untouched, the
destination holds the transcoded content, and every other path is
unchanged. -/
theorem syncFileToZola_ok (st : Settings) (f : VFile) (fs : FS)
    (hdir : st.zolaProjectPath ∈ fs.dirs) (hfail : fs.failSet = [])
    (hnd : articleTarget st f ∉ fs.dirs) :
    (syncFileToZola st fs f).1 = true ∧
    ((syncFileToZola st fs f).2.1).dirs = fs.dirs ∧
    ((syncFileToZola st fs f).2.1).failSet = fs.failSet ∧
    lookupA ((syncFileToZola st fs f).2.1).files (articleTarget st f)
      = some (convertImageLinks f.content) ∧
    (∀ q, q ≠ articleTarget st f →
      lookupA ((syncFileToZola st fs f).2.1).files q = lookupA fs.files q) := by
  have hw : fsWrite fs st.zolaProjectPath (articleTarget st f)
      (convertImageLinks f.content)
      = some (FS.mk (setA fs.files (articleTarget st f) (convertImageLinks f.content))
          fs.dirs fs.failSet) := by
    unfold fsWrite
    rw [if_pos ⟨hdir, by rw [hfail]; exact List.not_mem_nil _, hnd⟩]
  by_cases hex : lookupA fs.files (articleTarget st f)
      = some (convertImageLinks f.content)
  · rw [syncFileToZola_skip st fs f hex]
    exact ⟨rfl, rfl, rfl, hex, fun q hq => rfl⟩
  · cases hr : lookupA fs.files (articleTarget st f) with
    | some ex =>
      have he : ¬ ex = convertImageLinks f.content := fun hh => hex (hh ▸ hr)
      simp only [syncFileToZola]
      rw [show fsRead fs (articleTarget st f) = some ex from hr]
      simp only [if_neg he, hw]
      exact ⟨trivial, trivial, trivial, lookupA_setA_self _ _ _,
        fun q hq => lookupA_setA_ne _ _ _ _ hq⟩
    | none =>
      simp only [syncFileToZola]
      rw [show fsRead fs (articleTarget st f) = none from hr]
      simp only [if_neg hnd, hw]
      exact ⟨trivial, trivial, trivial, lookupA_setA_self _ _ _,
        fun q hq => lookupA_setA_ne _ _ _ _ hq⟩

/-- Helper: the first push run over a writable, collision-free batch:
directories and fail set are untouched, every candidate's destination
ends up holding its transcoded content, and paths that are no
candidate's target are unchanged. -/
theorem pushFiles_run1 (st : Settings) :
    ∀ (files : List VFile) (fs : FS),
      st.zolaProjectPath ∈ fs.dirs → fs.failSet = [] →
      (∀ f ∈ files, articleTarget st f ∉ fs.dirs) →
      ((files.map (fun f => f.name)).Nodup) →
      ((pushFiles st fs files).1).dirs = fs.dirs ∧
      ((pushFiles st fs files).1).failSet = fs.failSet ∧
      (∀ f ∈ files, lookupA ((pushFiles st fs files).1).files (articleTarget st f)
        = some (convertImageLinks f.content)) ∧
      (∀ q, (∀ f ∈ files, q ≠ articleTarget st f) →
        lookupA ((pushFiles st fs files).1).files q = lookupA fs.files q) := by
  intro files
  induction files with
  | nil =>
    intro fs _ _ _ _
    exact ⟨rfl, rfl, fun f hf => absurd hf (List.not_mem_nil f), fun q _ => rfl⟩
  | cons f rest ih =>
    intro fs hdir hfail htg hnd
    have hmem : f ∈ f :: rest := List.mem_cons_self f rest
    have hok := syncFileToZola_ok st f fs hdir hfail (htg f hmem)
    have hdir1 : st.zolaProjectPath ∈ ((syncFileToZola st fs f).2.1).dirs := by
      rw [hok.2.1]; exact hdir
    have hfail1 : ((syncFileToZola st fs f).2.1).failSet = [] := by
      rw [hok.2.2.1, hfail]
    have htg1 : ∀ g ∈ rest, articleTarget st g ∉ ((syncFileToZola st fs f).2.1).dirs :=
      fun g hg => by rw [hok.2.1]; exact htg g (List.mem_cons_of_mem f hg)
    have hndc : (∀ x ∈ rest, ¬ x.name = f.name) ∧
        (rest.map (fun f => f.name)).Nodup := by simpa using hnd
    have hih := ih ((syncFileToZola st fs f).2.1) hdir1 hfail1 htg1 hndc.2
    have htgne : ∀ g ∈ rest, articleTarget st f ≠ articleTarget st g := by
      intro g hg hh
      exact hndc.1 g hg (articleTarget_inj st hh).symm
    have hred : (pushFiles st fs (f :: rest)).1
        = (pushFiles st ((syncFileToZola st fs f).2.1) rest).1 := rfl
    refine ⟨?_, ?_, ?_, ?_⟩
    · rw [hred, hih.1, hok.2.1]
    · rw [hred, hih.2.1, hok.2.2.1]
    · intro g hg
      rcases List.mem_cons.mp hg with hgf | hgr
      · subst hgf
        rw [hred, hih.2.2.2 (articleTarget st g) (fun g' hg' => htgne g' hg')]
        exact hok.2.2.2.1
      · rw [hred]
        exact hih.2.2.1 g hgr
    · intro q hq
      rw [hred, hih.2.2.2 q (fun g hg => hq g (List.mem_cons_of_mem f hg)),
        hok.2.2.2.2 q (hq f hmem)]

/-- Helper: the second push run over a batch whose destinations already
hold the transcoded contents: disk untouched, all successes, no errors,
no mutating event. -/
theorem pushFiles_run2 (st : Settings) :
    ∀ (files : List VFile) (fs : FS),
      (∀ f ∈ files, lookupA fs.files (articleTarget st f)
        = some (convertImageLinks f.content)) →
      (pushFiles st fs files).1 = fs ∧
      (pushFiles st fs files).2.1 = files.length ∧
      (pushFiles st fs files).2.2.1 = 0 ∧
      List.filter isMutEv ((pushFiles st fs files).2.2.2) = [] := by
  intro files
  induction files with
  | nil => intro fs _; exact ⟨rfl, rfl, rfl, rfl⟩
  | cons f rest ih =>
    intro fs h
    have hskip := syncFileToZola_skip st fs f (h f (List.mem_cons_self f rest))
    have hih := ih fs (fun g hg => h g (List.mem_cons_of_mem f hg))
    simp only [pushFiles, hskip]
    refine ⟨hih.1, ?_, ?_, ?_⟩
    · rw [hih.2.1]; rfl
    · exact hih.2.2.1
    · rw [List.filter_append, hih.2.2.2]
      rfl

/-- Helper: the shape of an image copy that skips. -/
theorem copyImage_skip (st : Settings) (fs : FS) (f : VFile)
    (h : fsExists fs (imageTarget st f) = true) :
    copyImage st fs f = (fs, false, true, []) := by
  simp only [copyImage, h, if_true]

/-- Helper: the state shape of one image copy step: directories and the
fail set never change. -/
theorem copyImage_state (st : Settings) (fs : FS) (f : VFile) :
    ((copyImage st fs f).1).dirs = fs.dirs ∧
    ((copyImage st fs f).1).failSet = fs.failSet := by
  by_cases hex : fsExists fs (imageTarget st f) = true
  · rw [copyImage_skip st fs f hex]
    exact ⟨rfl, rfl⟩
  · have hfalse := bool_eq_false hex
    cases hw : fsWrite fs st.zolaImagesPath (imageTarget st f) f.content with
    | none => simp [copyImage, hfalse, hw]
    | some fs1 =>
      have he := fsWrite_eq hw
      simp only [copyImage, hfalse, Bool.false_eq_true, if_false, hw]
      exact ⟨he.2.1, he.2.2⟩

/-- Helper: existence is monotone under a file write. -/
theorem fsExists_after_set (fs : FS) (t c q : Str) (h : fsExists fs q = true) :
    fsExists (FS.mk (setA fs.files t c) fs.dirs fs.failSet) q = true := by
  unfold fsExists at h ⊢
  by_cases hq : q = t
  · subst hq
    rw [lookupA_setA_self]
    rfl
  · rw [lookupA_setA_ne _ _ _ _ hq]
    exact h

/-- Helper: one image copy step under a writable image directory makes
the image's destination exist, keeps directories and fail set, and
preserves existence of every path. -/
theorem copyImage_run1 (st : Settings) (fs : FS) (f : VFile)
    (hdir : st.zolaImagesPath ∈ fs.dirs) (hfail : fs.failSet = []) :
    fsExists ((copyImage st fs f).1) (imageTarget st f) = true ∧
    (∀ q, fsExists fs q = true → fsExists ((copyImage st fs f).1) q = true) := by
  by_cases hex : fsExists fs (imageTarget st f) = true
  · rw [copyImage_skip st fs f hex]
    exact ⟨hex, fun q hq => hq⟩
  · have hfalse := bool_eq_false hex
    have hnone := fsExists_false hfalse
    have hw : fsWrite fs st.zolaImagesPath (imageTarget st f) f.content
        = some (FS.mk (setA fs.files (imageTarget st f) f.content) fs.dirs fs.failSet) := by
      unfold fsWrite
      rw [if_pos ⟨hdir, by rw [hfail]; exact List.not_mem_nil _, hnone.2⟩]
    simp only [copyImage, hfalse, Bool.false_eq_true, if_false, hw]
    constructor
    · show fsExists (FS.mk (setA fs.files (imageTarget st f) f.content)
        fs.dirs fs.failSet) (imageTarget st f) = true
      unfold fsExists
      rw [lookupA_setA_self]
      rfl
    · intro q hq
      exact fsExists_after_set fs (imageTarget st f) f.content q hq

/-- Helper: after one first-run image loop every candidate's destination
exists; directories and fail set are unchanged; existence of every path
is preserved. -/
theorem copyImages_run1 (st : Settings) :
    ∀ (imgs : List VFile) (fs : FS),
      st.zolaImagesPath ∈ fs.dirs → fs.failSet = [] →
      (∀ f ∈ imgs, fsExists ((copyImages st fs imgs).1) (imageTarget st f) = true) ∧
      ((copyImages st fs imgs).1).dirs = fs.dirs ∧
      ((copyImages st fs imgs).1).failSet = fs.failSet ∧
      (∀ q, fsExists fs q = true → fsExists ((copyImages st fs imgs).1) q = true) := by
  intro imgs
  induction imgs with
  | nil =>
    intro fs _ _
    exact ⟨fun f hf => absurd hf (List.not_mem_nil f), rfl, rfl, fun q hq => hq⟩
  | cons f rest ih =>
    intro fs hdir hfail
    have hstep := copyImage_run1 st fs f hdir hfail
    have hstate := copyImage_state st fs f
    have hdir1 : st.zolaImagesPath ∈ ((copyImage st fs f).1).dirs := by
      rw [hstate.1]; exact hdir
    have hfail1 : ((copyImage st fs f).1).failSet = [] := by
      rw [hstate.2, hfail]
    have hih := ih ((copyImage st fs f).1) hdir1 hfail1
    have hred : (copyImages st fs (f :: rest)).1
        = (copyImages st ((copyImage st fs f).1) rest).1 := rfl
    refine ⟨?_, ?_, ?_, ?_⟩
    · intro g hg
      rcases List.mem_cons.mp hg with hgf | hgr
      · subst hgf
        rw [hred]
        exact hih.2.2.2 (imageTarget st g) hstep.1
      · rw [hred]
        exact hih.1 g hgr
    · rw [hred, hih.2.1, hstate.1]
    · rw [hred, hih.2.2.1, hstate.2]
    · intro q hq
      rw [hred]
      exact hih.2.2.2 q (hstep.2 q hq)

/-- Helper: an image loop over candidates that all already exist at the
destination is the identity with pure skips. -/
theorem copyImages_skip (st : Settings) :
    ∀ (imgs : List VFile) (fs : FS),
      (∀ f ∈ imgs, fsExists fs (imageTarget st f) = true) →
      copyImages st fs imgs = (fs, 0, imgs.length, []) := by
  intro imgs
  induction imgs with
  | nil => intro fs _; rfl
  | cons f rest ih =>
    intro fs h
    have hskip := copyImage_skip st fs f (h f (List.mem_cons_self f rest))
    have hih := ih fs (fun g hg => h g (List.mem_cons_of_mem f hg))
    simp [copyImages, hskip, hih]

/-- Helper: existence follows from directory membership. -/
theorem fsExists_of_dirs {fs : FS} {p : Str} (h : p ∈ fs.dirs) :
    fsExists fs p = true := by
  unfold fsExists
  simp [h]

/-- Helper: the first-run image step keeps the fail set and, when it is
active, leaves every image candidate existing at the destination and the
image directory existing. -/
theorem syncImages_run1 (st : Settings) (v : Vault) (fs : FS)
    (hfail : fs.failSet = [])
    (hnofile : lookupA fs.files st.zolaImagesPath = none) :
    ((syncImages st v fs).1).failSet = fs.failSet ∧
    (st.zolaImagesPath ≠ [] → st.obsidianImagesPath ≠ [] →
      imageCandidates st v ≠ [] →
      (∀ f ∈ imageCandidates st v,
        fsExists ((syncImages st v fs).1) (imageTarget st f) = true) ∧
      fsExists ((syncImages st v fs).1) st.zolaImagesPath = true) := by
  by_cases h0 : st.zolaImagesPath = [] ∨ st.obsidianImagesPath = []
  · simp only [syncImages, if_pos h0]
    refine ⟨trivial, fun h1 h2 _ => ?_⟩
    rcases h0 with h0 | h0
    · exact absurd h0 h1
    · exact absurd h0 h2
  · by_cases h1 : imageCandidates st v = []
    · simp only [syncImages, if_neg h0, if_pos h1]
      exact ⟨trivial, fun _ _ h3 => absurd h1 h3⟩
    · by_cases h2 : fsExists fs st.zolaImagesPath = true
      · have hdirs : st.zolaImagesPath ∈ fs.dirs := by
          unfold fsExists at h2
          rw [hnofile] at h2
          simpa using h2
        have hcl := copyImages_run1 st (imageCandidates st v) fs hdirs hfail
        simp only [syncImages, if_neg h0, if_neg h1, h2, if_true]
        refine ⟨hcl.2.2.1, fun _ _ _ => ⟨hcl.1, ?_⟩⟩
        apply fsExists_of_dirs
        rw [hcl.2.1]
        exact hdirs
      · have hf := bool_eq_false h2
        have hdirs : st.zolaImagesPath ∈ (fsMkdir fs st.zolaImagesPath).dirs :=
          List.mem_cons_self _ _
        have hfail1 : (fsMkdir fs st.zolaImagesPath).failSet = [] := hfail
        have hcl := copyImages_run1 st (imageCandidates st v)
          (fsMkdir fs st.zolaImagesPath) hdirs hfail1
        simp only [syncImages, if_neg h0, if_neg h1, hf, Bool.false_eq_true, if_false]
        refine ⟨hcl.2.2.1, fun _ _ _ => ⟨hcl.1, ?_⟩⟩
        apply fsExists_of_dirs
        rw [hcl.2.1]
        exact hdirs

/-- Helper: the image step over a state where every candidate already
exists at the destination (and the image directory exists) copies
nothing, mutates nothing and emits no mutating event. -/
theorem syncImages_skip (st : Settings) (v : Vault) (fs : FS)
    (hex : st.zolaImagesPath ≠ [] → st.obsidianImagesPath ≠ [] →
      imageCandidates st v ≠ [] →
      (∀ f ∈ imageCandidates st v, fsExists fs (imageTarget st f) = true) ∧
      fsExists fs st.zolaImagesPath = true) :
    (syncImages st v fs).1 = fs ∧
    (syncImages st v fs).2.1 = 0 ∧
    List.filter isMutEv ((syncImages st v fs).2.2.2) = [] := by
  by_cases h0 : st.zolaImagesPath = [] ∨ st.obsidianImagesPath = []
  · simp only [syncImages, if_pos h0]
    exact ⟨trivial, trivial, rfl⟩
  · by_cases h1 : imageCandidates st v = []
    · simp only [syncImages, if_neg h0, if_pos h1]
      exact ⟨trivial, trivial, rfl⟩
    · obtain ⟨hall, hzx⟩ := hex (not_or.mp h0).1 (not_or.mp h0).2 h1
      have hcs := copyImages_skip st (imageCandidates st v) fs hall
      simp only [syncImages, if_neg h0, if_neg h1, hzx, if_true, hcs]
      exact ⟨trivial, trivial, rfl⟩

/-- C2 amended.  Push is idempotent for collision-free batches: under a
configured, existing, writable destination root whose candidate file
names are pairwise distinct (and whose image-directory path is not
shadowed), a second push right after a first one returns the same world,
performs no mutating action (no destination write, no directory
creation), reports every article as a success with zero errors, and its
image step copies nothing. -/
theorem c2_amended_push_idempotent (st : Settings) (w : World)
    (hg : goodPushState st w) :
    (pushToZola st (pushToZola st w).1).1 = (pushToZola st w).1 ∧
    List.filter isMutEv ((pushToZola st (pushToZola st w).1).2.1) = [] ∧
    (pushToZola st (pushToZola st w).1).2.2
      = PushResult.completed (pushCandidates st w.vault).length 0 ∧
    (syncImages st ((pushToZola st w).1).vault ((pushToZola st w).1).disk).2.1 = 0 := by
  obtain ⟨hcfg, hdir, hfail, hnodup, htargets, hnofile⟩ := hg
  set cands := pushCandidates st w.vault with hcands
  set fs1 := (pushFiles st w.disk cands).1 with hfs1
  set d1 := (syncImages st w.vault fs1).1 with hd1
  have hrun1 : (pushToZola st w).1 = ⟨w.vault, d1⟩ := by
    unfold pushToZola
    rw [if_neg hcfg]
  have hA := pushFiles_run1 st cands w.disk hdir hfail
    (fun f hf => (htargets f hf).1) hnodup
  have hfs1fail : fs1.failSet = [] := by rw [hfs1, hA.2.1, hfail]
  have hfs1nofile : lookupA fs1.files st.zolaImagesPath = none := by
    rw [hfs1, hA.2.2.2 st.zolaImagesPath (fun f hf hh => (htargets f hf).2 hh.symm)]
    exact hnofile
  have hB := syncImages_run1 st w.vault fs1 hfs1fail hfs1nofile
  have harts : ∀ f ∈ cands,
      lookupA d1.files (articleTarget st f) = some (convertImageLinks f.content) := by
    intro f hf
    rw [hd1, syncImages_pres st w.vault fs1 (articleTarget st f)
      (by rw [hA.2.2.1 f hf]; rfl)]
    exact hA.2.2.1 f hf
  have hC := pushFiles_run2 st cands d1 harts
  have hD := syncImages_skip st w.vault d1 hB.2
  have hrun2 : pushToZola st (⟨w.vault, d1⟩ : World)
      = (⟨w.vault, (syncImages st w.vault (pushFiles st d1 cands).1).1⟩,
         Ev.enumEv :: ((pushFiles st d1 cands).2.2.2
           ++ (syncImages st w.vault (pushFiles st d1 cands).1).2.2.2),
         PushResult.completed (pushFiles st d1 cands).2.1
           (pushFiles st d1 cands).2.2.1) := by
    unfold pushToZola
    rw [if_neg hcfg]
  rw [hrun1]
  refine ⟨?_, ?_, ?_, ?_⟩
  · rw [hrun2, hC.1, hD.1]
  · rw [hrun2, hC.1]
    simp [List.filter_cons, List.filter_append, hC.2.2.2, hD.2.2, isMutEv]
  · rw [hrun2, hC.2.1, hC.2.2.1]
  · exact hD.2.1

/-- C2 witness.  The idempotence theorem applied to the concrete world
with one article and one image. -/
theorem c2_witness :
    goodPushState stFull wIdem ∧
    (pushToZola stFull (pushToZola stFull wIdem).1).1 = (pushToZola stFull wIdem).1 :=
  ⟨by decide, (c2_amended_push_idempotent stFull wIdem (by decide)).1⟩
